import Mathlib

set_option maxHeartbeats 1000000
set_option maxRecDepth 4000

/-! Shallow embedding of the algorithmic core of `project.py`: the Banker's
Algorithm safety engine `is_safe_state`, the deadlock detector
`detect_deadlock`, the validator `validate_input`, and the derived
resource-utilization metric computed in `simulate`.

Machine integers of the source are modelled as `Int`; the numpy matrices
are `List (List Int)` with entry access `mIdx` (out-of-range access in
numpy raises; all theorems below carry the shape hypotheses under which
every access is in range, so the `getD` defaults are never exercised).
-/

/-- Entry `m[i][j]` of a matrix stored as a list of rows. -/
def mIdx (m : List (List Int)) (i j : Nat) : Int := (m.getD i []).getD j 0

/-- numpy elementwise vector addition `work += allocation[i]` (equal shapes). -/
def addVec (v w : List Int) : List Int := List.zipWith (· + ·) v w

/-- Need matrix `need = max_demand - allocation` (numpy elementwise subtraction, equal shapes). -/
def needOf (max_demand allocation : List (List Int)) : List (List Int) :=
  List.zipWith (fun mr ar => List.zipWith (· - ·) mr ar) max_demand allocation

/-- Grant test `all(need[i, j] <= work[j] for j in range(len(resources)))`. -/
def canGrant (need : List (List Int)) (nRes : Nat) (i : Nat) (work : List Int) : Bool :=
  (List.range nRes).all (fun j => decide (mIdx need i j ≤ work.getD j 0))

/-- State of one pass of the while-loop of `is_safe_state`:
the mutable `work`, `finish`, `safe_sequence` and the `allocated` flag. -/
structure PassState where
  work : List Int
  finish : List Bool
  seq : List String
  allocated : Bool

/-- Body of `for i in range(len(processes))` inside the while-loop of
`is_safe_state` (lines 18-23 of `project.py`). -/
def passStep (need allocation : List (List Int)) (nRes : Nat) (processes : List String)
    (s : PassState) (i : Nat) : PassState :=
  if !(s.finish.getD i false) && canGrant need nRes i s.work then
    { work := addVec s.work (allocation.getD i [])
      finish := s.finish.set i true
      seq := s.seq ++ [processes.getD i ("")]
      allocated := true }
  else s

/-- One full pass of the inner `for` loop of `is_safe_state`. -/
def runPass (need allocation : List (List Int)) (nRes : Nat) (processes : List String)
    (s : PassState) : PassState :=
  (List.range processes.length).foldl (passStep need allocation nRes processes) s

/-- The `while len(safe_sequence) < len(processes)` loop of `is_safe_state`.
Each iteration with `allocated == True` appends at least one process to the
sequence (`safeLoop_fuel_irrelevant` below), so with initial fuel
`len(processes) + 1` the fuel-exhaustion branch is never reached and the
function computes exactly what the unbounded Python loop computes. -/
def safeLoop (need allocation : List (List Int)) (nRes : Nat) (processes : List String) :
    Nat → List Int → List Bool → List String → Bool × List String
  | 0, _, _, seq =>
      if seq.length < processes.length then (false, []) else (true, seq)
  | fuel + 1, work, finish, seq =>
      if seq.length < processes.length then
        let s := runPass need allocation nRes processes (PassState.mk work finish seq false)
        if s.allocated then safeLoop need allocation nRes processes fuel s.work s.finish s.seq
        else (false, [])
      else (true, seq)

/-- Safety engine `is_safe_state(processes, resources, allocation, max_demand, available)`
(lines 7-26 of `project.py`). -/
def is_safe_state (processes resources : List String)
    (allocation max_demand : List (List Int)) (available : List Int) :
    Bool × List String :=
  safeLoop (needOf max_demand allocation) allocation resources.length processes
    (processes.length + 1) available (List.replicate processes.length false) []

/-- Edges returned by `detect_deadlock`: the synthetic total-starvation
fast path returns 2-tuples `(process, "Resources")`, the graph path
returns 3-tuples `(u, v, direction)` from `nx.find_cycle`. -/
inductive CycleEdge where
  | pair (a b : String)
  | tri (a b dir : String)
deriving DecidableEq

/-- Edges of the resource-allocation graph, inserted in the source's order:
row-major over `(process index, resource index)`, the waiting edge
`process → resource` before the holding edge `resource → process`
(lines 54-61 of `project.py`). -/
def buildEdges (processes resources : List String) (allocation need : List (List Int))
    (available : List Int) : List (String × String) :=
  (List.range processes.length).flatMap (fun i =>
    (List.range resources.length).flatMap (fun j =>
      (if mIdx need i j > 0 ∧ mIdx allocation i j = 0 ∧ available.getD j 0 = 0 then
        [(processes.getD i (""), resources.getD j (""))] else []) ++
      (if mIdx allocation i j > 0 then
        [(resources.getD j (""), processes.getD i (""))] else [])))

/-- Successors of a node, in edge-insertion order. -/
def succsOf (edges : List (String × String)) (u : String) : List String :=
  (edges.filter (fun e => e.fst == u)).map Prod.snd

/-- One breadth step of reachability: add the successors of the current set. -/
def reachStep (edges : List (String × String)) (s : List String) : List String :=
  s ++ ((s.flatMap (succsOf edges)).filter (fun v => !(s.contains v)))

/-- Nodes reachable from `v` in at most `fuel` steps. -/
def reachFrom (edges : List (String × String)) : Nat → List String → List String
  | 0, s => s
  | fuel + 1, s => reachFrom edges fuel (reachStep edges s)

/-- Whether `target` is reachable from `v` in zero or more steps (fuel `n` = node count). -/
def canReach (edges : List (String × String)) (n : Nat) (v target : String) : Bool :=
  (reachFrom edges n [v]).contains target

/-- Walk greedily from `cur` back to `target`, recording the traversed edges;
models the cycle reconstruction of `nx.find_cycle(G, orientation='original')`,
whose edges are `(u, v, 'forward')` triples. -/
def buildCyclePath (edges : List (String × String)) (n : Nat) (target : String) :
    Nat → String → List CycleEdge → Option (List CycleEdge)
  | 0, _, _ => none
  | fuel + 1, cur, acc =>
    match (succsOf edges cur).find? (fun v => v == target || canReach edges n v target) with
    | none => none
    | some v =>
      if v == target then some (acc ++ [CycleEdge.tri cur v ("forward")])
      else buildCyclePath edges n target fuel v (acc ++ [CycleEdge.tri cur v ("forward")])

/-- Deterministic model of the library call
`nx.find_cycle(G, orientation='original')`: scan the nodes in insertion
order for the first one lying on a directed cycle and return one cycle
through it as `(u, v, 'forward')` edges; `none` when the graph is acyclic. -/
def find_cycle (nodes : List String) (edges : List (String × String)) :
    Option (List CycleEdge) :=
  let n := nodes.length
  match nodes.find? (fun u => (succsOf edges u).any (fun v => canReach edges n v u)) with
  | none => none
  | some u => buildCyclePath edges n u (n + 1) u []

/-- Deadlock detector `detect_deadlock(processes, resources, allocation, max_demand, available)`
(lines 28-68 of `project.py`).  The first branch is the total-starvation
fast path: `np.all(available == 0)` together with no process having an
all-zero `need` row returns the synthetic cycle `[(p, "Resources") ...]`
before any graph is built. -/
def detect_deadlock (processes resources : List String)
    (allocation max_demand : List (List Int)) (available : List Int) :
    Bool × List CycleEdge :=
  let need := needOf max_demand allocation
  if available.all (fun x => x == 0) &&
      (List.range processes.length).all
        (fun i => !((need.getD i []).all (fun x => x == 0))) then
    (true, processes.map (fun p => CycleEdge.pair p ("Resources")))
  else
    let nodes := processes ++ resources
    let edges := buildEdges processes resources allocation need available
    match find_cycle nodes edges with
    | some cyc => (true, cyc)
    | none => (false, [])

/-- A matrix given as nested lists is rectangular (jagged input makes
`np.array` raise, which `validate_input` reports as an input-format error). -/
def isRect (m : List (List Int)) : Bool :=
  m.all (fun r => r.length == (m.headD []).length)

/-- Row-major scan order of the `allocation <= max_demand` check. -/
def allPairs (nP nR : Nat) : List (Nat × Nat) :=
  (List.range nP).flatMap (fun i => (List.range nR).map (fun j => (i, j)))

/-- The message of the first `allocation[i][j] > max_demand[i][j]` violation,
or an input-format error when a row of `max_demand` is too short for the
numpy index `max_demand[i][j]` (IndexError caught by the `except` block). -/
def allocCheck (processes resources : List String)
    (allocation max_demand : List (List Int)) : Option String :=
  (allPairs processes.length resources.length).findSome? (fun p =>
    if (max_demand.getD p.fst []).length ≤ p.snd then
      some ("Invalid input format: index out of bounds")
    else if mIdx allocation p.fst p.snd > mIdx max_demand p.fst p.snd then
      (some ("Invalid: Process " ++ processes.getD p.fst ("") ++ " is allocated "
        ++ toString (mIdx allocation p.fst p.snd) ++ " units of resource "
        ++ resources.getD p.snd ("") ++ ", but declared max need is "
        ++ toString (mIdx max_demand p.fst p.snd)))
    else none)

/-- The message of the `available[j] >= 0` generator check, which
short-circuits left to right and raises IndexError (caught as an
input-format error) when `available` is shorter than `resources`. -/
def availCheck (resources : List String) (available : List Int) : Option String :=
  (List.range resources.length).findSome? (fun j =>
    if available.length ≤ j then
      some ("Invalid input format: index out of bounds")
    else if available.getD j 0 < 0 then
      some ("Available resources cannot be negative")
    else none)

/-- Validator `validate_input(processes, resources, allocation, max_demand, available)`
(lines 70-104 of `project.py`). -/
def validate_input (processes resources : List String)
    (allocation max_demand : List (List Int)) (available : List Int) :
    Bool × String :=
  if !(isRect allocation) || !(isRect max_demand) then
    (false, "Invalid input format: inhomogeneous matrix shape")
  else if processes.length ≠ allocation.length then
    (false, "Number of processes (" ++ toString processes.length
      ++ ") doesn\x27t match allocation matrix rows (" ++ toString allocation.length ++ ")")
  else if allocation.isEmpty then
    (false, "Invalid input format: index 0 is out of bounds for axis 0 with size 0")
  else if resources.length ≠ (allocation.headD []).length then
    (false, "Number of resources (" ++ toString resources.length
      ++ ") doesn\x27t match allocation matrix columns ("
      ++ toString (allocation.headD []).length ++ ")")
  else if max_demand.length ≠ allocation.length then
    (false, "Max demand matrix dimensions don\x27t match allocation matrix")
  else
    match allocCheck processes resources allocation max_demand with
    | some msg => (false, msg)
    | none =>
      match availCheck resources available with
      | some msg => (false, msg)
      | none => (true, "")

/-- Column sums `total_allocated = np.sum(allocation, axis=0)` (column sums). -/
def total_allocated (allocation : List (List Int)) : List Int :=
  (List.range ((allocation.headD []).length)).map
    (fun j => (allocation.map (fun row => row.getD j 0)).sum)

/-- Totals `total_resources = total_allocated + total_available`. -/
def total_resources (allocation : List (List Int)) (available : List Int) : List Int :=
  List.zipWith (· + ·) (total_allocated allocation) available

/-- Utilization `utilization = (total_allocated / total_resources * 100)`, modelled over ℚ. -/
def resource_utilization (allocation : List (List Int)) (available : List Int) : List ℚ :=
  List.zipWith (fun (ta tr : Int) => (ta : ℚ) / (tr : ℚ) * 100)
    (total_allocated allocation) (total_resources allocation available)

/-! Basic list helper lemmas used throughout. -/

theorem getD_set_self {α : Type} (l : List α) (i : Nat) (hi : i < l.length) (b d : α) :
    (l.set i b).getD i d = b := by
  rw [List.getD_eq_getElem _ _ (by simpa using hi), List.getElem_set_self]

theorem getD_set_ne {α : Type} (l : List α) (i k : Nat) (h : i ≠ k) (b d : α) :
    (l.set i b).getD k d = l.getD k d := by
  rcases Nat.lt_or_ge k l.length with hk | hk
  · rw [List.getD_eq_getElem _ _ (by simpa using hk), List.getD_eq_getElem _ _ hk]
    exact List.getElem_set_ne h _
  · rw [List.getD_eq_default _ _ (by simpa using hk), List.getD_eq_default _ _ hk]

theorem zipWith_getD {α β γ : Type} (f : α → β → γ) (l1 : List α) (l2 : List β)
    (j : Nat) (h1 : j < l1.length) (h2 : j < l2.length) (d1 : α) (d2 : β) (d3 : γ) :
    (List.zipWith f l1 l2).getD j d3 = f (l1.getD j d1) (l2.getD j d2) := by
  induction l1 generalizing l2 j with
  | nil => simp at h1
  | cons a l ih =>
    cases l2 with
    | nil => simp at h2
    | cons b l2 =>
      cases j with
      | zero => rfl
      | succ j =>
        simp only [List.zipWith_cons_cons, List.getD_cons_succ]
        exact ih l2 j (by simpa using h1) (by simpa using h2)

theorem getD_replicate_false (n i : Nat) : (List.replicate n false).getD i false = false := by
  rcases Nat.lt_or_ge i n with hi | hi
  · rw [List.getD_eq_getElem _ _ (by simpa using hi)]
    simp
  · rw [List.getD_eq_default _ _ (by simpa using hi)]

theorem range_map_getD (processes : List String) :
    (List.range processes.length).map (fun i => processes.getD i ("")) = processes := by
  apply List.ext_getElem
  · simp
  · intro k h1 h2
    simp only [List.getElem_map, List.getElem_range]
    rw [List.getD_eq_getElem _ _ h2]

/-! Lemmas about the deadlock detector's total-starvation fast path. -/

/-- Helper: when no resource has available units and no process has an
all-zero need row, `detect_deadlock` returns the synthetic cycle from its
fast path, before any graph is built. -/
theorem detect_deadlock_fastpath_eq (processes resources : List String)
    (allocation max_demand : List (List Int)) (available : List Int)
    (h1 : ∀ x ∈ available, x = 0)
    (h2 : ∀ i < processes.length,
      ((needOf max_demand allocation).getD i []).all (fun x => x == 0) = false) :
    detect_deadlock processes resources allocation max_demand available =
      (true, processes.map (fun p => CycleEdge.pair p ("Resources"))) := by
  have hav : available.all (fun x => x == 0) = true := by
    rw [List.all_eq_true]
    intro x hx
    exact beq_iff_eq.mpr (h1 x hx)
  have hneed : (List.range processes.length).all
      (fun i => !(((needOf max_demand allocation).getD i []).all (fun x => x == 0))) = true := by
    rw [List.all_eq_true]
    intro i hi
    rw [List.mem_range] at hi
    rw [h2 i hi]
    rfl
  simp only [detect_deadlock, hav, hneed, Bool.and_self, if_true]

/-! Lemmas about the validator. -/

/-- Shape facts guaranteed by a successful `validate_input` run: both
matrices converted without error, the row counts agree with the process
count, and the resource count agrees with the allocation column count. -/
theorem validate_accept_shapes (processes resources : List String)
    (allocation max_demand : List (List Int)) (available : List Int)
    (h : (validate_input processes resources allocation max_demand available).1 = true) :
    isRect allocation = true ∧ isRect max_demand = true ∧
      processes.length = allocation.length ∧ allocation ≠ [] ∧
      resources.length = (allocation.headD []).length ∧
      max_demand.length = allocation.length := by
  unfold validate_input at h
  split_ifs at h with g1 g2 g3 g4 g5
  simp only [Bool.or_eq_true, Bool.not_eq_true', not_or, Bool.not_eq_false] at g1
  simp only [ne_eq, not_not] at g2 g4 g5
  simp only [List.isEmpty_iff] at g3
  exact ⟨g1.1, g1.2, g2, g3, g4, g5⟩

/-! Claim theorems about the deadlock detector, the validator and the metrics. -/

/-- C2 (code-bug evidence): on the all-empty input (zero processes, zero
resources), `is_safe_state` returns `(True, [])` as the claim expects, but
`detect_deadlock` returns deadlocked `True` with an empty cycle, because
`np.all` of the empty `available` array is `True` and the loop over zero
processes never clears `all_processes_need`; the claim and the spec say it
must return deadlocked `False`. -/
theorem empty_input_is_safe_but_flags_deadlock :
    is_safe_state [] [] [] [] [] = (true, []) ∧
      detect_deadlock [] [] [] [] [] = (true, []) := by
  constructor <;> rfl

/-- C3: whenever every entry of `available` is zero and no process has an
all-zero row of `need = max_demand - allocation`, `detect_deadlock` returns
deadlocked `True` with the synthetic cycle pairing every process, in index
order, with the generic `Resources` node (its fast path, taken before the
resource-allocation graph is built). -/
theorem detect_deadlock_total_starvation_fastpath (processes resources : List String)
    (allocation max_demand : List (List Int)) (available : List Int)
    (h1 : ∀ x ∈ available, x = 0)
    (h2 : ∀ i < processes.length,
      ((needOf max_demand allocation).getD i []).all (fun x => x == 0) = false) :
    detect_deadlock processes resources allocation max_demand available =
      (true, processes.map (fun p => CycleEdge.pair p ("Resources"))) :=
  detect_deadlock_fastpath_eq processes resources allocation max_demand available h1 h2

/-- Witness for C3 at a concrete input with one starving process. -/
theorem detect_deadlock_total_starvation_fastpath_witness :
    detect_deadlock ["P0"] ["R0"] [[0]] [[1]] [0] =
      (true, [CycleEdge.pair ("P0") ("Resources")]) := by
  have h := detect_deadlock_total_starvation_fastpath ["P0"] ["R0"] [[0]] [[1]] [0]
    (by decide) (by decide)
  simpa using h

/-- C4: in the 2-process / 2-resource cyclic-wait family (each process
holds one unit of one resource, needs the resource held by the other,
`available = [0,0]`, allocation within max demand), `detect_deadlock`
reports a deadlock and the returned cycle has 2 edges and contains both
processes (the synthetic fast-path cycle). -/
theorem detect_deadlock_mutual_wait_cycle (p0 p1 r0 r1 : String) (a b c d : Int)
    (allocation : List (List Int))
    (hconf : (allocation = [[1, 0], [0, 1]] ∧ 0 < b ∧ 0 < c) ∨
      (allocation = [[0, 1], [1, 0]] ∧ 0 < a ∧ 0 < d))
    (hle : ∀ i < 2, ∀ j < 2, mIdx allocation i j ≤ mIdx [[a, b], [c, d]] i j) :
    detect_deadlock [p0, p1] [r0, r1] allocation [[a, b], [c, d]] [0, 0] =
      (true, [CycleEdge.pair p0 ("Resources"), CycleEdge.pair p1 ("Resources")]) ∧
      (detect_deadlock [p0, p1] [r0, r1] allocation [[a, b], [c, d]] [0, 0]).2.length = 2 ∧
      CycleEdge.pair p0 ("Resources") ∈
        (detect_deadlock [p0, p1] [r0, r1] allocation [[a, b], [c, d]] [0, 0]).2 ∧
      CycleEdge.pair p1 ("Resources") ∈
        (detect_deadlock [p0, p1] [r0, r1] allocation [[a, b], [c, d]] [0, 0]).2 := by
  have h1 : ∀ x ∈ ([0, 0] : List Int), x = 0 := by
    intro x hx
    simp at hx
    exact hx
  have heq : detect_deadlock [p0, p1] [r0, r1] allocation [[a, b], [c, d]] [0, 0] =
      (true, [CycleEdge.pair p0 ("Resources"), CycleEdge.pair p1 ("Resources")]) := by
    rcases hconf with ⟨rfl, hb, hc⟩ | ⟨rfl, ha, hd⟩
    · have hbne : (b == 0) = false := by simpa using hb.ne'
      have hcne : (c == 0) = false := by simpa using hc.ne'
      have h := detect_deadlock_fastpath_eq [p0, p1] [r0, r1] [[1, 0], [0, 1]]
        [[a, b], [c, d]] [0, 0] h1 ?_
      · simpa using h
      · intro i hi
        simp only [List.length_cons, List.length_nil, Nat.zero_add] at hi
        interval_cases i <;> simp [needOf, hbne, hcne]
    · have hane : (a == 0) = false := by simpa using ha.ne'
      have hdne : (d == 0) = false := by simpa using hd.ne'
      have h := detect_deadlock_fastpath_eq [p0, p1] [r0, r1] [[0, 1], [1, 0]]
        [[a, b], [c, d]] [0, 0] h1 ?_
      · simpa using h
      · intro i hi
        simp only [List.length_cons, List.length_nil, Nat.zero_add] at hi
        interval_cases i <;> simp [needOf, hane, hdne]
  refine ⟨heq, ?_, ?_, ?_⟩ <;> rw [heq] <;> simp

/-- Witness for C4 at a concrete instance of the cyclic-wait family. -/
theorem detect_deadlock_mutual_wait_cycle_witness :
    detect_deadlock [("P0"), ("P1")] [("R0"), ("R1")] [[1, 0], [0, 1]]
        [[1, 1], [1, 1]] [0, 0] =
      (true, [CycleEdge.pair ("P0") ("Resources"), CycleEdge.pair ("P1") ("Resources")]) ∧
      (detect_deadlock [("P0"), ("P1")] [("R0"), ("R1")] [[1, 0], [0, 1]]
        [[1, 1], [1, 1]] [0, 0]).2.length = 2 ∧
      CycleEdge.pair ("P0") ("Resources") ∈
        (detect_deadlock [("P0"), ("P1")] [("R0"), ("R1")] [[1, 0], [0, 1]]
          [[1, 1], [1, 1]] [0, 0]).2 ∧
      CycleEdge.pair ("P1") ("Resources") ∈
        (detect_deadlock [("P0"), ("P1")] [("R0"), ("R1")] [[1, 0], [0, 1]]
          [[1, 1], [1, 1]] [0, 0]).2 :=
  detect_deadlock_mutual_wait_cycle ("P0") ("P1") ("R0") ("R1") 1 1 1 1 [[1, 0], [0, 1]]
    (Or.inl ⟨rfl, by decide, by decide⟩) (by decide)

/-- C6: the classical textbook example (5 processes, 3 resource types,
`available = [3,3,2]`) is safe, and under the grant-all-per-pass tie-break
the computed completion order is `P1, P3, P4, P0, P2`. -/
theorem textbook_example_safe_sequence :
    is_safe_state [("P0"), ("P1"), ("P2"), ("P3"), ("P4")] [("R0"), ("R1"), ("R2")]
      [[0, 1, 0], [2, 0, 0], [3, 0, 2], [2, 1, 1], [0, 0, 2]]
      [[7, 5, 3], [3, 2, 2], [9, 0, 2], [2, 2, 2], [4, 3, 3]] [3, 3, 2] =
      (true, [("P1"), ("P3"), ("P4"), ("P0"), ("P2")]) := by decide

/-- C7 (counterexample): when only the row count of `max_demand` disagrees
(here `max_demand = []` against one process and a 1x1 allocation), the
failure message is the fixed string
`Max demand matrix dimensions don't match allocation matrix`, which
contains no digits and therefore does not name the expected and actual
counts, contrary to the claim. -/
theorem max_demand_rows_mismatch_message_has_no_counts :
    validate_input [("P0")] [("R0")] [[0]] [] [0] =
      (false, "Max demand matrix dimensions don\x27t match allocation matrix") ∧
      (("Max demand matrix dimensions don\x27t match allocation matrix").toList.all
        (fun ch => !ch.isDigit)) = true := by decide

/-- C7 (amended): `validate_input` checks, in order and short-circuiting:
process count versus allocation rows (message naming both counts), resource
count versus allocation columns (message naming both counts), and only then
`max_demand` rows versus allocation rows, whose message is a fixed string
that names no counts. -/
theorem validate_input_check_order (processes resources : List String)
    (allocation max_demand : List (List Int)) (available : List Int)
    (hrA : isRect allocation = true) (hrM : isRect max_demand = true) :
    (processes.length ≠ allocation.length →
      validate_input processes resources allocation max_demand available =
        (false, "Number of processes (" ++ toString processes.length
          ++ ") doesn\x27t match allocation matrix rows ("
          ++ toString allocation.length ++ ")")) ∧
    (processes.length = allocation.length → allocation ≠ [] →
      resources.length ≠ (allocation.headD []).length →
      validate_input processes resources allocation max_demand available =
        (false, "Number of resources (" ++ toString resources.length
          ++ ") doesn\x27t match allocation matrix columns ("
          ++ toString (allocation.headD []).length ++ ")")) ∧
    (processes.length = allocation.length → allocation ≠ [] →
      resources.length = (allocation.headD []).length →
      max_demand.length ≠ allocation.length →
      validate_input processes resources allocation max_demand available =
        (false, "Max demand matrix dimensions don\x27t match allocation matrix")) := by
  refine ⟨fun h1 => ?_, fun h1 h2 h3 => ?_, fun h1 h2 h3 h4 => ?_⟩
  · simp [validate_input, hrA, hrM, h1]
  · have h3x : resources.length ≠ (allocation.head?.getD []).length := by
      simpa [List.headD_eq_head?_getD] using h3
    simp [validate_input, hrA, hrM, h1, h2, h3x, List.isEmpty_iff]
  · have h3x : resources.length = (allocation.head?.getD []).length := by
      simpa [List.headD_eq_head?_getD] using h3
    simp [validate_input, hrA, hrM, h1, h2, h3x, h4, List.isEmpty_iff]

/-- Witness for C7's amended theorem at concrete inputs exercising the
third (max-demand-rows) branch. -/
theorem validate_input_check_order_witness :
    validate_input [("P0")] [("R0")] [[0]] [] [0] =
      (false, "Max demand matrix dimensions don\x27t match allocation matrix") :=
  (validate_input_check_order [("P0")] [("R0")] [[0]] [] [0]
    (by decide) (by decide)).2.2 (by decide) (by decide) (by decide) (by decide)

/-- C8: `validate_input` never checks the column count of the max-demand
matrix: this rectangular `max_demand` has the right number of rows but 3
columns against 2 resources, yet validation succeeds, although
`need = max_demand - allocation` is then shape-inconsistent downstream. -/
theorem validate_input_ignores_max_demand_columns :
    validate_input [("P0")] [("R0"), ("R1")] [[0, 0]] [[0, 0, 0]] [0, 0] = (true, "") ∧
      isRect [[(0 : Int), 0, 0]] = true ∧
      ([[(0 : Int), 0, 0]].length = ([("P0")] : List String).length) ∧
      (([[(0 : Int), 0, 0]].headD []).length ≠ ([("R0"), ("R1")] : List String).length) := by
  decide

/-- C9 (counterexample): an input accepted by `validate_input` on which the
utilization divisor `total_allocated[j] + available[j]` is zero: one process
holding nothing, `max_demand = [[0]]`, `available = [0]`. -/
theorem utilization_divisor_zero_accepted :
    validate_input [("P0")] [("R0")] [[0]] [[0]] [0] = (true, "") ∧
      total_resources [[0]] [0] = [(0 : Int)] := by decide

/-- C9 (amended): for inputs accepted by `validate_input` whose available
vector has one entry per resource, the utilization entry for every resource
`j` whose divisor is nonzero equals
`100 * total_allocated[j] / (total_allocated[j] + available[j])`;
the divisor itself is not guaranteed nonzero by validation
(see `utilization_divisor_zero_accepted`). -/
theorem resource_utilization_formula (processes resources : List String)
    (allocation max_demand : List (List Int)) (available : List Int)
    (hacc : (validate_input processes resources allocation max_demand available).1 = true)
    (hav : available.length = resources.length)
    (j : Nat) (hj : j < resources.length)
    (hdiv : (total_resources allocation available).getD j 0 ≠ 0) :
    (resource_utilization allocation available).getD j 0 =
      100 * ((total_allocated allocation).getD j 0 : ℚ) /
        ((total_resources allocation available).getD j 0 : ℚ) := by
  obtain ⟨-, -, -, -, hcols, -⟩ :=
    validate_accept_shapes processes resources allocation max_demand available hacc
  have hta : (total_allocated allocation).length = resources.length := by
    simp [total_allocated, hcols]
  have h1 : j < (total_allocated allocation).length := by omega
  have htr : (total_resources allocation available).length = resources.length := by
    simp only [total_resources, List.length_zipWith, hta, hav]
    omega
  have h2 : j < (total_resources allocation available).length := by omega
  unfold resource_utilization
  rw [zipWith_getD _ _ _ j h1 h2 0 0 0]
  ring

/-- Witness for C9's amended theorem at a concrete accepted input with a
nonzero divisor. -/
theorem resource_utilization_formula_witness :
    (resource_utilization [[1]] [0]).getD 0 0 =
      100 * ((total_allocated [[1]]).getD 0 0 : ℚ) /
        ((total_resources [[1]] [0]).getD 0 0 : ℚ) :=
  resource_utilization_formula [("P0")] [("R0")] [[1]] [[1]] [0]
    (by decide) (by decide) 0 (by decide) (by decide)

/-- C10: both engines are deterministic functions of their inputs: running
either on equal inputs yields identical results, including the order of
the safe sequence and of the cycle edges (in the embedding both are pure
functions, and edge insertion and cycle discovery order are fixed by the
input). -/
theorem engines_deterministic (procs1 res1 procs2 res2 : List String)
    (alloc1 maxd1 alloc2 maxd2 : List (List Int)) (avail1 avail2 : List Int)
    (hp : procs1 = procs2) (hr : res1 = res2) (hA : alloc1 = alloc2)
    (hM : maxd1 = maxd2) (hav : avail1 = avail2) :
    is_safe_state procs1 res1 alloc1 maxd1 avail1 =
      is_safe_state procs2 res2 alloc2 maxd2 avail2 ∧
    detect_deadlock procs1 res1 alloc1 maxd1 avail1 =
      detect_deadlock procs2 res2 alloc2 maxd2 avail2 := by
  subst hp hr hA hM hav
  exact ⟨rfl, rfl⟩

/-- Witness for C10 at a concrete input. -/
theorem engines_deterministic_witness :
    is_safe_state [("P0")] [("R0")] [[1]] [[1]] [0] =
      is_safe_state [("P0")] [("R0")] [[1]] [[1]] [0] ∧
    detect_deadlock [("P0")] [("R0")] [[1]] [[1]] [0] =
      detect_deadlock [("P0")] [("R0")] [[1]] [[1]] [0] :=
  engines_deterministic [("P0")] [("R0")] [("P0")] [("R0")] [[1]] [[1]] [[1]] [[1]] [0] [0]
    rfl rfl rfl rfl rfl

/-! Ghost trace machinery for the while-loop of `is_safe_state`. -/

/-- Ghost trace of one pass: the indices granted by the scan
`for i in idxs` of `is_safe_state`, in scan order, mirroring the running
`work`/`finish` updates the pass performs. -/
def grants (need allocation : List (List Int)) (nRes : Nat) :
    List Nat → List Int → List Bool → List Nat
  | [], _, _ => []
  | i :: idxs, work, finish =>
    if !(finish.getD i false) && canGrant need nRes i work then
      i :: grants need allocation nRes idxs (addVec work (allocation.getD i []))
        (finish.set i true)
    else grants need allocation nRes idxs work finish

/-- Release the allocation rows of the processes in `l` into `w`. -/
def applyRows (allocation : List (List Int)) (w : List Int) (l : List Nat) : List Int :=
  l.foldl (fun acc i => addVec acc (allocation.getD i [])) w

/-- Mark every index in `l` as finished. -/
def setAll (f : List Bool) (l : List Nat) : List Bool :=
  l.foldl (fun acc i => acc.set i true) f

/-- A list of process indices is a feasible completion order from `work`:
each process is grantable at the moment it is reached, after the releases
of all processes before it. -/
def goodSeq (need allocation : List (List Int)) (nRes : Nat) : List Nat → List Int → Prop
  | [], _ => True
  | i :: idxs, work =>
    canGrant need nRes i work = true ∧
      goodSeq need allocation nRes idxs (addVec work (allocation.getD i []))

theorem addVec_length (v w : List Int) : (addVec v w).length = min v.length w.length := by
  simp [addVec]

theorem addVec_getD (v w : List Int) (j : Nat) (hv : j < v.length) (hw : j < w.length) :
    (addVec v w).getD j 0 = v.getD j 0 + w.getD j 0 :=
  zipWith_getD _ v w j hv hw 0 0 0

theorem vec_ext (nRes : Nat) (v w : List Int) (hv : v.length = nRes) (hw : w.length = nRes)
    (h : ∀ j < nRes, v.getD j 0 = w.getD j 0) : v = w := by
  apply List.ext_getElem (by omega)
  intro j h1 h2
  have h3 := h j (by omega)
  rwa [List.getD_eq_getElem _ _ h1, List.getD_eq_getElem _ _ h2] at h3

theorem canGrant_mono (need : List (List Int)) (nRes : Nat) (i : Nat) (w w2 : List Int)
    (hle : ∀ j < nRes, w.getD j 0 ≤ w2.getD j 0) (h : canGrant need nRes i w = true) :
    canGrant need nRes i w2 = true := by
  rw [canGrant, List.all_eq_true] at h ⊢
  intro j hj
  have hj2 := List.mem_range.mp hj
  have h3 := h j hj
  rw [decide_eq_true_eq] at h3 ⊢
  exact le_trans h3 (hle j hj2)

theorem applyRows_append (allocation : List (List Int)) (w : List Int) (l1 l2 : List Nat) :
    applyRows allocation w (l1 ++ l2) =
      applyRows allocation (applyRows allocation w l1) l2 :=
  List.foldl_append _ _ l1 l2

theorem applyRows_length (allocation : List (List Int)) (nRes : Nat) (l : List Nat) :
    ∀ (w : List Int), (∀ i ∈ l, (allocation.getD i []).length = nRes) →
      w.length = nRes → (applyRows allocation w l).length = nRes := by
  induction l with
  | nil => intro w _ hw; exact hw
  | cons a l ih =>
    intro w hrows hw
    have hstep : applyRows allocation w (a :: l) =
        applyRows allocation (addVec w (allocation.getD a [])) l := rfl
    rw [hstep]
    apply ih _ (fun i hi => hrows i (List.mem_cons_of_mem a hi))
    rw [addVec_length, hw, hrows a (List.mem_cons_self a l)]
    omega

theorem applyRows_getD (allocation : List (List Int)) (nRes : Nat) (l : List Nat) :
    ∀ (w : List Int) (j : Nat), j < nRes →
      (∀ i ∈ l, (allocation.getD i []).length = nRes) → w.length = nRes →
      (applyRows allocation w l).getD j 0 =
        w.getD j 0 + (l.map (fun i => (allocation.getD i []).getD j 0)).sum := by
  induction l with
  | nil => intro w j _ _ _; simp [applyRows]
  | cons a l ih =>
    intro w j hj hrows hw
    have hrow : (allocation.getD a []).length = nRes := hrows a (List.mem_cons_self a l)
    have hstep : applyRows allocation w (a :: l) =
        applyRows allocation (addVec w (allocation.getD a [])) l := rfl
    rw [hstep, ih _ j hj (fun i hi => hrows i (List.mem_cons_of_mem a hi))
      (by rw [addVec_length, hw, hrow]; omega)]
    rw [addVec_getD w _ j (by omega) (by omega)]
    simp only [List.map_cons, List.sum_cons]
    ring

theorem grants_sublist (need allocation : List (List Int)) (nRes : Nat) (idxs : List Nat) :
    ∀ (w : List Int) (f : List Bool), List.Sublist (grants need allocation nRes idxs w f) idxs := by
  induction idxs with
  | nil => intro w f; simp [grants]
  | cons i idxs ih =>
    intro w f
    by_cases hg : (!(f.getD i false) && canGrant need nRes i w) = true
    · rw [grants, if_pos hg]
      exact (ih _ _).cons₂ i
    · rw [grants, if_neg hg]
      exact (ih w f).trans (List.sublist_cons_self i idxs)

theorem grants_unfinished (need allocation : List (List Int)) (nRes : Nat) (idxs : List Nat) :
    ∀ (w : List Int) (f : List Bool), (∀ i ∈ idxs, i < f.length) →
      ∀ g ∈ grants need allocation nRes idxs w f, f.getD g false = false := by
  induction idxs with
  | nil => intro w f _ g hg; simp [grants] at hg
  | cons i idxs ih =>
    intro w f hlen g hg
    by_cases hc : (!(f.getD i false) && canGrant need nRes i w) = true
    case neg =>
      rw [grants, if_neg hc] at hg
      exact ih w f (fun x hx => hlen x (List.mem_cons_of_mem i hx)) g hg
    case pos =>
      rw [grants, if_pos hc] at hg
      rcases List.mem_cons.mp hg with rfl | hg2
      · rw [Bool.and_eq_true] at hc
        simpa using hc.1
      · have hx := ih (addVec w (allocation.getD i [])) (f.set i true)
          (fun x hx => by rw [List.length_set]; exact hlen x (List.mem_cons_of_mem _ hx)) g hg2
        by_cases hgi : i = g
        · subst hgi
          rw [getD_set_self f i (hlen i (List.mem_cons_self i idxs)) true false] at hx
          exact absurd hx (by simp)
        · rwa [getD_set_ne f i g hgi true false] at hx

theorem grants_goodSeq (need allocation : List (List Int)) (nRes : Nat) (idxs : List Nat) :
    ∀ (w : List Int) (f : List Bool),
      goodSeq need allocation nRes (grants need allocation nRes idxs w f) w := by
  induction idxs with
  | nil => intro w f; simp [grants, goodSeq]
  | cons i idxs ih =>
    intro w f
    by_cases hc : (!(f.getD i false) && canGrant need nRes i w) = true
    · rw [grants, if_pos hc]
      rw [goodSeq]
      rw [Bool.and_eq_true] at hc
      exact ⟨hc.2, ih _ _⟩
    · rw [grants, if_neg hc]
      exact ih w f

theorem grants_ne_nil (need allocation : List (List Int)) (nRes : Nat) (idxs : List Nat) :
    ∀ (w : List Int) (f : List Bool) (i : Nat), i ∈ idxs → f.getD i false = false →
      canGrant need nRes i w = true → grants need allocation nRes idxs w f ≠ [] := by
  induction idxs with
  | nil => intro w f i hi; simp at hi
  | cons a idxs ih =>
    intro w f i hi hf hc
    by_cases hca : (!(f.getD a false) && canGrant need nRes a w) = true
    · rw [grants, if_pos hca]
      exact List.cons_ne_nil a _
    · have hai : i ≠ a := by
        rintro rfl
        rw [Bool.and_eq_true, Bool.not_eq_true', hf] at hca
        exact hca ⟨rfl, hc⟩
      rw [grants, if_neg hca]
      have hi2 : i ∈ idxs := by
        rcases List.mem_cons.mp hi with rfl | h
        · exact absurd rfl hai
        · exact h
      exact ih w f i hi2 hf hc

theorem setAll_length (l : List Nat) : ∀ (f : List Bool), (setAll f l).length = f.length := by
  induction l with
  | nil => intro f; rfl
  | cons a l ih =>
    intro f
    have hstep : setAll f (a :: l) = setAll (f.set a true) l := rfl
    rw [hstep, ih (f.set a true), List.length_set]

theorem setAll_getD (l : List Nat) : ∀ (f : List Bool) (i : Nat), (∀ g ∈ l, g < f.length) →
    (setAll f l).getD i false = (f.getD i false || decide (i ∈ l)) := by
  induction l with
  | nil => intro f i _; simp [setAll]
  | cons a l ih =>
    intro f i hlen
    have hstep : setAll f (a :: l) = setAll (f.set a true) l := rfl
    rw [hstep, ih (f.set a true) i
      (fun g hg => by rw [List.length_set]; exact hlen g (List.mem_cons_of_mem a hg))]
    by_cases hia : i = a
    · subst hia
      rw [getD_set_self f i (hlen i (List.mem_cons_self i l)) true false]
      simp [List.mem_cons]
    · rw [getD_set_ne f a i (fun h => hia h.symm) true false]
      simp [List.mem_cons, hia]

/-- Characterization of one full pass of the inner loop by its ghost grant
trace: the pass releases the granted rows into `work`, marks the granted
indices finished, appends their names to the sequence, and sets `allocated`
iff some index was granted. -/
theorem foldl_passStep_eq (need allocation : List (List Int)) (nRes : Nat)
    (processes : List String) (idxs : List Nat) :
    ∀ (s : PassState),
      idxs.foldl (passStep need allocation nRes processes) s =
        { work := applyRows allocation s.work (grants need allocation nRes idxs s.work s.finish)
          finish := setAll s.finish (grants need allocation nRes idxs s.work s.finish)
          seq := s.seq ++ (grants need allocation nRes idxs s.work s.finish).map
            (fun i => processes.getD i (""))
          allocated :=
            s.allocated || !(grants need allocation nRes idxs s.work s.finish).isEmpty } := by
  induction idxs with
  | nil =>
    intro s
    simp [grants, applyRows, setAll]
  | cons i idxs ih =>
    intro s
    rw [List.foldl_cons]
    by_cases hg : (!(s.finish.getD i false) && canGrant need nRes i s.work) = true
    · have hps : passStep need allocation nRes processes s i =
          { work := addVec s.work (allocation.getD i [])
            finish := s.finish.set i true
            seq := s.seq ++ [processes.getD i ("")]
            allocated := true } := by
        rw [passStep, if_pos hg]
      have hgr : grants need allocation nRes (i :: idxs) s.work s.finish =
          i :: grants need allocation nRes idxs (addVec s.work (allocation.getD i []))
            (s.finish.set i true) := by
        rw [grants, if_pos hg]
      rw [hps, ih _, hgr]
      have happ : applyRows allocation s.work
          (i :: grants need allocation nRes idxs (addVec s.work (allocation.getD i []))
            (s.finish.set i true)) =
          applyRows allocation (addVec s.work (allocation.getD i []))
            (grants need allocation nRes idxs (addVec s.work (allocation.getD i []))
              (s.finish.set i true)) := rfl
      have hset : setAll s.finish
          (i :: grants need allocation nRes idxs (addVec s.work (allocation.getD i []))
            (s.finish.set i true)) =
          setAll (s.finish.set i true)
            (grants need allocation nRes idxs (addVec s.work (allocation.getD i []))
              (s.finish.set i true)) := rfl
      rw [happ, hset]
      simp [List.append_assoc]
    · have hps : passStep need allocation nRes processes s i = s := by
        rw [passStep, if_neg hg]
      have hgr : grants need allocation nRes (i :: idxs) s.work s.finish =
          grants need allocation nRes idxs s.work s.finish := by
        rw [grants, if_neg hg]
      rw [hps, ih s, hgr]

theorem goodSeq_append (need allocation : List (List Int)) (nRes : Nat) (l1 : List Nat) :
    ∀ (l2 : List Nat) (w : List Int),
      goodSeq need allocation nRes (l1 ++ l2) w ↔
        (goodSeq need allocation nRes l1 w ∧
          goodSeq need allocation nRes l2 (applyRows allocation w l1)) := by
  induction l1 with
  | nil =>
    intro l2 w
    simp [goodSeq, applyRows]
  | cons a l1 ih =>
    intro l2 w
    have hstep : applyRows allocation w (a :: l1) =
        applyRows allocation (addVec w (allocation.getD a [])) l1 := rfl
    rw [List.cons_append, goodSeq, goodSeq, ih l2 (addVec w (allocation.getD a [])), hstep,
      and_assoc]

theorem goodSeq_mono (need allocation : List (List Int)) (nRes : Nat) (l : List Nat) :
    ∀ (w w2 : List Int),
      (∀ i ∈ l, (allocation.getD i []).length = nRes) →
      w.length = nRes → w2.length = nRes →
      (∀ j < nRes, w.getD j 0 ≤ w2.getD j 0) →
      goodSeq need allocation nRes l w → goodSeq need allocation nRes l w2 := by
  induction l with
  | nil =>
    intro w w2 _ _ _ _ _
    simp [goodSeq]
  | cons a l ih =>
    intro w w2 hrows hw hw2 hle hg
    rw [goodSeq] at hg ⊢
    obtain ⟨hca, hgl⟩ := hg
    have hrow : (allocation.getD a []).length = nRes := hrows a (List.mem_cons_self a l)
    refine ⟨canGrant_mono need nRes a w w2 hle hca, ?_⟩
    apply ih (addVec w (allocation.getD a [])) (addVec w2 (allocation.getD a []))
      (fun i hi => hrows i (List.mem_cons_of_mem a hi))
      (by rw [addVec_length, hw, hrow]; omega)
      (by rw [addVec_length, hw2, hrow]; omega)
      ?_ hgl
    intro j hj
    rw [addVec_getD w _ j (by omega) (by omega), addVec_getD w2 _ j (by omega) (by omega)]
    have := hle j hj
    omega

/-- Exchange lemma: if `l` is a feasible completion order from `w` and the
scheduler instead grants the subset `s` of `l` up front (releasing their
rows, which are non-negative), the remaining processes, in their original
relative order, are still a feasible completion order. -/
theorem goodSeq_filter_out (need allocation : List (List Int)) (nRes : Nat) (l : List Nat) :
    ∀ (s : List Nat) (w : List Int),
      l.Nodup → s.Nodup → (∀ x ∈ s, x ∈ l) →
      (∀ i ∈ l, (allocation.getD i []).length = nRes) →
      (∀ i ∈ l, ∀ x ∈ allocation.getD i [], 0 ≤ x) →
      w.length = nRes →
      goodSeq need allocation nRes l w →
      goodSeq need allocation nRes (l.filter (fun i => decide (i ∉ s)))
        (applyRows allocation w s) := by
  induction l with
  | nil =>
    intro s w _ _ _ _ _ _ _
    simp [goodSeq]
  | cons a l ih =>
    intro s w hld hsd hsub hrows hpos hw hg
    rw [goodSeq] at hg
    obtain ⟨hca, hgl⟩ := hg
    have hrow : (allocation.getD a []).length = nRes := hrows a (List.mem_cons_self a l)
    have hanotl : a ∉ l := (List.nodup_cons.mp hld).1
    have hldl : l.Nodup := (List.nodup_cons.mp hld).2
    have haw : (addVec w (allocation.getD a [])).length = nRes := by
      rw [addVec_length, hw, hrow]; omega
    by_cases has : a ∈ s
    · have hfil : (a :: l).filter (fun i => decide (i ∉ s)) =
          l.filter (fun i => decide (i ∉ s)) := by
        simp [List.filter_cons, has]
      rw [hfil]
      have hperm : s.Perm (a :: s.erase a) := List.perm_cons_erase has
      have hsd2 : (s.erase a).Nodup := hsd.erase a
      have hsub2 : ∀ x ∈ s.erase a, x ∈ l := by
        intro x hx
        obtain ⟨hne, hxs⟩ := (List.Nodup.mem_erase_iff hsd).mp hx
        rcases List.mem_cons.mp (hsub x hxs) with rfl | h
        · exact absurd rfl hne
        · exact h
      have ihx := ih (s.erase a) (addVec w (allocation.getD a [])) hldl hsd2 hsub2
        (fun i hi => hrows i (List.mem_cons_of_mem a hi))
        (fun i hi => hpos i (List.mem_cons_of_mem a hi)) haw hgl
      have hfil2 : l.filter (fun i => decide (i ∉ s.erase a)) =
          l.filter (fun i => decide (i ∉ s)) := by
        apply List.filter_congr
        intro x hx
        have hxa : x ≠ a := fun h => hanotl (h ▸ hx)
        simp [List.Nodup.mem_erase_iff hsd, hxa]
      have hwork : applyRows allocation (addVec w (allocation.getD a [])) (s.erase a) =
          applyRows allocation w s := by
        have hrowsE : ∀ i ∈ s.erase a, (allocation.getD i []).length = nRes :=
          fun i hi => hrows i (List.mem_cons_of_mem a (hsub2 i hi))
        have hrowsS : ∀ i ∈ s, (allocation.getD i []).length = nRes :=
          fun i hi => hrows i (hsub i hi)
        apply vec_ext nRes
        · exact applyRows_length allocation nRes (s.erase a) _ hrowsE haw
        · exact applyRows_length allocation nRes s w hrowsS hw
        · intro j hj
          rw [applyRows_getD allocation nRes (s.erase a) _ j hj hrowsE haw,
            applyRows_getD allocation nRes s w j hj hrowsS hw,
            addVec_getD w _ j (by omega) (by omega)]
          have hsum : (s.map (fun i => (allocation.getD i []).getD j 0)).sum =
              ((a :: s.erase a).map (fun i => (allocation.getD i []).getD j 0)).sum :=
            (hperm.map _).sum_eq
          rw [hsum, List.map_cons, List.sum_cons]
          ring
      rw [hfil2, hwork] at ihx
      exact ihx
    · have hfil : (a :: l).filter (fun i => decide (i ∉ s)) =
          a :: l.filter (fun i => decide (i ∉ s)) := by
        simp [List.filter_cons, has]
      rw [hfil, goodSeq]
      have hrowsS : ∀ i ∈ s, (allocation.getD i []).length = nRes :=
        fun i hi => hrows i (hsub i hi)
      have hsumpos : ∀ j < nRes, 0 ≤ (s.map (fun i => (allocation.getD i []).getD j 0)).sum := by
        intro j hj
        apply List.sum_nonneg
        intro x hx
        obtain ⟨i, hi, rfl⟩ := List.mem_map.mp hx
        have hri := hrowsS i hi
        rw [List.getD_eq_getElem _ _ (by omega)]
        exact hpos i (hsub i hi) _ (List.getElem_mem _)
      constructor
      · apply canGrant_mono need nRes a w _ ?_ hca
        intro j hj
        rw [applyRows_getD allocation nRes s w j hj hrowsS hw]
        have := hsumpos j hj
        omega
      · have ihx := ih s (addVec w (allocation.getD a [])) hldl hsd
          (fun x hx => by
            rcases List.mem_cons.mp (hsub x hx) with rfl | h
            · exact absurd hx has
            · exact h)
          (fun i hi => hrows i (List.mem_cons_of_mem a hi))
          (fun i hi => hpos i (List.mem_cons_of_mem a hi)) haw hgl
        have hwork : applyRows allocation (addVec w (allocation.getD a [])) s =
            addVec (applyRows allocation w s) (allocation.getD a []) := by
          have hlen1 := applyRows_length allocation nRes s
            (addVec w (allocation.getD a [])) hrowsS haw
          have hlen2 := applyRows_length allocation nRes s w hrowsS hw
          apply vec_ext nRes
          · exact hlen1
          · rw [addVec_length, hlen2, hrow]; omega
          · intro j hj
            rw [applyRows_getD allocation nRes s _ j hj hrowsS haw,
              addVec_getD w _ j (by omega) (by omega),
              addVec_getD _ _ j (by omega) (by omega),
              applyRows_getD allocation nRes s w j hj hrowsS hw]
            ring
        rwa [hwork] at ihx

theorem filter_length_split {α : Type} (l : List α) (p : α → Bool) :
    (l.filter p).length + (l.filter (fun x => !(p x))).length = l.length := by
  induction l with
  | nil => rfl
  | cons a l ih =>
    rcases Bool.eq_false_or_eq_true (p a) with hp | hp <;>
      simp [List.filter_cons, hp] <;> omega

/-- A duplicate-free list of indices, all below `n`, with at least `n`
elements covers exactly the indices below `n`. -/
theorem covers_of_full (n : Nat) (tr : List Nat) (hnd : tr.Nodup)
    (hsub : ∀ i ∈ tr, i < n) (hlen : n ≤ tr.length) :
    ∀ i, i ∈ tr ↔ i < n := by
  have hsp := List.subperm_of_subset hnd (fun i hi => List.mem_range.mpr (hsub i hi))
  have hperm : tr.Perm (List.range n) := hsp.perm_of_length_le (by simpa using hlen)
  intro i
  rw [hperm.mem_iff, List.mem_range]

theorem safeLoop_false_nil (need allocation : List (List Int)) (nRes : Nat)
    (processes : List String) (fuel : Nat) :
    ∀ (work : List Int) (finish : List Bool) (seq : List String),
      (safeLoop need allocation nRes processes fuel work finish seq).1 = false →
      (safeLoop need allocation nRes processes fuel work finish seq).2 = [] := by
  induction fuel with
  | zero =>
    intro work finish seq h
    rw [safeLoop] at h ⊢
    by_cases hlt : seq.length < processes.length
    · rw [if_pos hlt]
    · rw [if_neg hlt] at h
      simp at h
  | succ fuel ih =>
    intro work finish seq h
    simp only [safeLoop] at h ⊢
    by_cases hlt : seq.length < processes.length
    · rw [if_pos hlt] at h ⊢
      by_cases hal : (runPass need allocation nRes processes
          (PassState.mk work finish seq false)).allocated = true
      · rw [if_pos hal] at h ⊢
        exact ih _ _ _ h
      · rw [if_neg hal]
    · rw [if_neg hlt] at h
      simp at h

/-- Soundness of the greedy loop: whenever it answers `True`, the indices
it granted, in grant order, form a duplicate-free feasible completion
order of all processes from the original `available`, and the returned
sequence is exactly their names. -/
theorem safeLoop_sound (need allocation : List (List Int)) (nRes : Nat)
    (processes : List String) (av : List Int) (fuel : Nat) :
    ∀ (work : List Int) (finish : List Bool) (seq : List String) (tr : List Nat),
      tr.Nodup →
      (∀ i, i ∈ tr ↔ (i < processes.length ∧ finish.getD i false = true)) →
      goodSeq need allocation nRes tr av →
      work = applyRows allocation av tr →
      seq = tr.map (fun i => processes.getD i ("")) →
      finish.length = processes.length →
      (safeLoop need allocation nRes processes fuel work finish seq).1 = true →
      ∃ sg : List Nat, sg.Nodup ∧ (∀ i, i ∈ sg ↔ i < processes.length) ∧
        goodSeq need allocation nRes sg av ∧
        (safeLoop need allocation nRes processes fuel work finish seq).2 =
          sg.map (fun i => processes.getD i ("")) := by
  induction fuel with
  | zero =>
    intro work finish seq tr hnd hmem hgood hwork hseq hfin hres
    rw [safeLoop] at hres ⊢
    by_cases hlt : seq.length < processes.length
    · rw [if_pos hlt] at hres
      simp at hres
    · rw [if_neg hlt] at hres ⊢
      refine ⟨tr, hnd, ?_, hgood, hseq⟩
      apply covers_of_full processes.length tr hnd (fun i hi => ((hmem i).mp hi).1)
      have : seq.length = tr.length := by rw [hseq, List.length_map]
      omega
  | succ fuel ih =>
    intro work finish seq tr hnd hmem hgood hwork hseq hfin hres
    simp only [safeLoop] at hres ⊢
    by_cases hlt : seq.length < processes.length
    case neg =>
      rw [if_neg hlt] at hres ⊢
      refine ⟨tr, hnd, ?_, hgood, hseq⟩
      apply covers_of_full processes.length tr hnd (fun i hi => ((hmem i).mp hi).1)
      have : seq.length = tr.length := by rw [hseq, List.length_map]
      omega
    case pos =>
      rw [if_pos hlt] at hres ⊢
      rw [runPass, foldl_passStep_eq] at hres ⊢
      by_cases hal : ((PassState.mk work finish seq false).allocated ||
          !(grants need allocation nRes (List.range processes.length)
            (PassState.mk work finish seq false).work
            (PassState.mk work finish seq false).finish).isEmpty) = true
      case neg =>
        rw [if_neg hal] at hres
        simp at hres
      case pos =>
        rw [if_pos hal] at hres ⊢
        have hGnd : (grants need allocation nRes (List.range processes.length)
            work finish).Nodup :=
          List.Nodup.sublist
            (grants_sublist need allocation nRes (List.range processes.length) work finish)
            (List.nodup_range processes.length)
        have hGlt : ∀ g ∈ grants need allocation nRes (List.range processes.length)
            work finish, g < processes.length := by
          intro g hg
          exact List.mem_range.mp
            ((grants_sublist need allocation nRes (List.range processes.length)
              work finish).mem hg)
        have hGunf : ∀ g ∈ grants need allocation nRes (List.range processes.length)
            work finish, finish.getD g false = false :=
          grants_unfinished need allocation nRes (List.range processes.length) work finish
            (fun i hi => by rw [hfin]; exact List.mem_range.mp hi)
        refine ih _ _ _ (tr ++ grants need allocation nRes (List.range processes.length)
          work finish) ?_ ?_ ?_ ?_ ?_ ?_ hres
        · refine List.Nodup.append hnd hGnd ?_
          intro x hx hxg
          have h1 := ((hmem x).mp hx).2
          have h2 := hGunf x hxg
          rw [h1] at h2
          exact absurd h2 (by simp)
        · intro i
          rw [List.mem_append, setAll_getD _ finish i
            (fun g hg => by rw [hfin]; exact hGlt g hg)]
          constructor
          · rintro (hi | hi)
            · obtain ⟨h1, h2⟩ := (hmem i).mp hi
              exact ⟨h1, by rw [h2]; rfl⟩
            · exact ⟨hGlt i hi, by simp [hi]⟩
          · rintro ⟨h1, h2⟩
            rw [Bool.or_eq_true] at h2
            rcases h2 with h2 | h2
            · exact Or.inl ((hmem i).mpr ⟨h1, h2⟩)
            · rw [decide_eq_true_eq] at h2
              exact Or.inr h2
        · rw [goodSeq_append]
          refine ⟨hgood, ?_⟩
          rw [← hwork]
          exact grants_goodSeq need allocation nRes (List.range processes.length) work finish
        · rw [applyRows_append, ← hwork]
        · rw [List.map_append, hseq]
        · rw [setAll_length, hfin]

/-- Completeness of the greedy loop: if the still-unfinished processes
admit any feasible completion order from the current `work`, the loop
answers `True` (requires the allocation rows to be non-negative, as the
spec's data model demands). -/
theorem safeLoop_complete (need allocation : List (List Int)) (nRes : Nat)
    (processes : List String)
    (hrows : ∀ i < processes.length, (allocation.getD i []).length = nRes)
    (hpos : ∀ i < processes.length, ∀ x ∈ allocation.getD i [], 0 ≤ x)
    (fuel : Nat) :
    ∀ (work : List Int) (finish : List Bool) (seq : List String) (sg : List Nat),
      sg.Nodup →
      (∀ i, i ∈ sg ↔ (i < processes.length ∧ finish.getD i false = false)) →
      goodSeq need allocation nRes sg work →
      seq.length + sg.length = processes.length →
      finish.length = processes.length →
      work.length = nRes →
      sg.length < fuel →
      (safeLoop need allocation nRes processes fuel work finish seq).1 = true := by
  induction fuel with
  | zero =>
    intro work finish seq sg _ _ _ _ _ _ hfuel
    omega
  | succ fuel ih =>
    intro work finish seq sg hnd hmem hgood hlen hfin hw hfuel
    simp only [safeLoop]
    by_cases hlt : seq.length < processes.length
    case neg =>
      rw [if_neg hlt]
    case pos =>
      rw [if_pos hlt]
      rw [runPass, foldl_passStep_eq]
      simp only [Bool.false_or]
      cases hsg : sg with
      | nil =>
        rw [hsg] at hlen
        simp at hlen
        omega
      | cons i0 t =>
        rw [hsg] at hmem hgood hnd hlen hfuel
        rw [goodSeq] at hgood
        have hi0 := (hmem i0).mp (List.mem_cons_self i0 t)
        have hGne : grants need allocation nRes (List.range processes.length)
            work finish ≠ [] :=
          grants_ne_nil need allocation nRes (List.range processes.length) work finish i0
            (List.mem_range.mpr hi0.1) hi0.2 hgood.1
        have hal : (!(grants need allocation nRes (List.range processes.length)
            work finish).isEmpty) = true := by
          simp [List.isEmpty_iff, hGne]
        rw [if_pos hal]
        have hGnd : (grants need allocation nRes (List.range processes.length)
            work finish).Nodup :=
          List.Nodup.sublist
            (grants_sublist need allocation nRes (List.range processes.length) work finish)
            (List.nodup_range processes.length)
        have hGlt : ∀ g ∈ grants need allocation nRes (List.range processes.length)
            work finish, g < processes.length := by
          intro g hg
          exact List.mem_range.mp
            ((grants_sublist need allocation nRes (List.range processes.length)
              work finish).mem hg)
        have hGunf : ∀ g ∈ grants need allocation nRes (List.range processes.length)
            work finish, finish.getD g false = false :=
          grants_unfinished need allocation nRes (List.range processes.length) work finish
            (fun i hi => by rw [hfin]; exact List.mem_range.mp hi)
        have hGsub : ∀ g ∈ grants need allocation nRes (List.range processes.length)
            work finish, g ∈ i0 :: t := by
          intro g hg
          exact (hmem g).mpr ⟨hGlt g hg, hGunf g hg⟩
        have hsgrows : ∀ i ∈ i0 :: t, (allocation.getD i []).length = nRes :=
          fun i hi => hrows i ((hmem i).mp hi).1
        have hsgpos : ∀ i ∈ i0 :: t, ∀ x ∈ allocation.getD i [], 0 ≤ x :=
          fun i hi => hpos i ((hmem i).mp hi).1
        have hfilperm : ((i0 :: t).filter (fun i => decide (i ∈ grants need allocation nRes
            (List.range processes.length) work finish))).Perm
            (grants need allocation nRes (List.range processes.length) work finish) := by
          rw [List.perm_ext_iff_of_nodup (hnd.filter _) hGnd]
          intro a
          rw [List.mem_filter, decide_eq_true_eq]
          constructor
          · exact fun h => h.2
          · exact fun h => ⟨hGsub a h, h⟩
        have hsplit := filter_length_split (i0 :: t)
          (fun i => decide (i ∈ grants need allocation nRes
            (List.range processes.length) work finish))
        have hfilcongr : ((i0 :: t).filter (fun x => !(decide (x ∈ grants need allocation nRes
            (List.range processes.length) work finish)))) =
            ((i0 :: t).filter (fun x => decide (x ∉ grants need allocation nRes
              (List.range processes.length) work finish))) := by
          apply List.filter_congr
          intro x _
          simp
        have hGlen : (grants need allocation nRes (List.range processes.length)
            work finish).length ≥ 1 := by
          cases hGc : grants need allocation nRes (List.range processes.length) work finish with
          | nil => exact absurd hGc hGne
          | cons a l => simp
        apply ih _ _ _ ((i0 :: t).filter (fun i => decide (i ∉ grants need allocation nRes
          (List.range processes.length) work finish)))
        · exact hnd.filter _
        · intro i
          rw [List.mem_filter, decide_eq_true_eq, setAll_getD _ finish i
            (fun g hg => by rw [hfin]; exact hGlt g hg)]
          rw [Bool.or_eq_false_iff]
          constructor
          · rintro ⟨h1, h2⟩
            obtain ⟨h3, h4⟩ := (hmem i).mp h1
            exact ⟨h3, h4, by simpa using h2⟩
          · rintro ⟨h1, h2, h3⟩
            have h4 : i ∉ grants need allocation nRes (List.range processes.length)
                work finish := by simpa using h3
            exact ⟨(hmem i).mpr ⟨h1, h2⟩, h4⟩
        · exact goodSeq_filter_out need allocation nRes (i0 :: t) _ work hnd hGnd hGsub
            hsgrows hsgpos hw hgood
        · rw [List.length_append, List.length_map]
          have h6 := hfilperm.length_eq
          have h7 := hsplit
          rw [hfilcongr] at h7
          simp only [List.length_cons] at h7 hlen
          omega
        · rw [setAll_length, hfin]
        · exact applyRows_length allocation nRes _ work (fun g hg => hrows g (hGlt g hg)) hw
        · have h6 := hfilperm.length_eq
          have h7 := hsplit
          rw [hfilcongr] at h7
          simp only [List.length_cons] at h7 hfuel
          omega

/-- Fuel irrelevance: two fuels both exceeding the number of processes not
yet in the sequence give identical results, because every iteration with
`allocated == True` lengthens the sequence. Hence `is_safe_state`'s fuel
`len(processes) + 1` computes exactly what the unbounded Python `while`
loop computes. -/
theorem safeLoop_fuel_irrelevant (need allocation : List (List Int)) (nRes : Nat)
    (processes : List String) (f1 : Nat) :
    ∀ (f2 : Nat) (work : List Int) (finish : List Bool) (seq : List String),
      processes.length < seq.length + f1 → processes.length < seq.length + f2 →
      safeLoop need allocation nRes processes f1 work finish seq =
        safeLoop need allocation nRes processes f2 work finish seq := by
  induction f1 with
  | zero =>
    intro f2 work finish seq h1 h2
    have hlt : ¬(seq.length < processes.length) := by omega
    cases f2 with
    | zero => rfl
    | succ f2 =>
      simp only [safeLoop]
      rw [if_neg hlt, if_neg hlt]
  | succ f1 ih =>
    intro f2 work finish seq h1 h2
    by_cases hlt : seq.length < processes.length
    case neg =>
      cases f2 with
      | zero =>
        simp only [safeLoop]
        rw [if_neg hlt, if_neg hlt]
      | succ f2 =>
        simp only [safeLoop]
        rw [if_neg hlt, if_neg hlt]
    case pos =>
      cases f2 with
      | zero => omega
      | succ f2 =>
        simp only [safeLoop]
        rw [if_pos hlt, if_pos hlt]
        rw [runPass, foldl_passStep_eq]
        simp only [Bool.false_or]
        by_cases hal : (!(grants need allocation nRes (List.range processes.length)
            work finish).isEmpty) = true
        · rw [if_pos hal, if_pos hal]
          have hGlen : 1 ≤ (grants need allocation nRes (List.range processes.length)
              work finish).length := by
            cases hGc : grants need allocation nRes (List.range processes.length)
              work finish with
            | nil => rw [hGc] at hal; simp at hal
            | cons a l => simp
          apply ih
          · rw [List.length_append, List.length_map]
            omega
          · rw [List.length_append, List.length_map]
            omega
        · rw [if_neg hal, if_neg hal]

/-- Helper: when `is_safe_state` answers safe, the returned sequence is a
permutation of the process list. -/
theorem is_safe_state_true_perm (processes resources : List String)
    (allocation max_demand : List (List Int)) (available : List Int)
    (h : (is_safe_state processes resources allocation max_demand available).1 = true) :
    (is_safe_state processes resources allocation max_demand available).2.Perm processes := by
  rw [is_safe_state] at h ⊢
  obtain ⟨sg, hnd, hmemb, hgood, hout⟩ := safeLoop_sound (needOf max_demand allocation)
    allocation resources.length processes available (processes.length + 1)
    available (List.replicate processes.length false) [] []
    List.nodup_nil
    (fun i => by simp [getD_replicate_false])
    trivial rfl rfl (List.length_replicate _ _) h
  rw [hout]
  have hperm : sg.Perm (List.range processes.length) := by
    rw [List.perm_ext_iff_of_nodup hnd (List.nodup_range _)]
    intro i
    rw [List.mem_range]
    exact hmemb i
  have hmapped := hperm.map (fun i => processes.getD i (""))
  rwa [range_map_getD] at hmapped

/-- Helper: when `is_safe_state` answers unsafe, the returned sequence is
empty. -/
theorem is_safe_state_false_empty (processes resources : List String)
    (allocation max_demand : List (List Int)) (available : List Int)
    (h : (is_safe_state processes resources allocation max_demand available).1 = false) :
    (is_safe_state processes resources allocation max_demand available).2 = [] := by
  rw [is_safe_state] at h ⊢
  exact safeLoop_false_nil _ _ _ _ _ _ _ _ h

/-- C1: for every input accepted by the validator, `is_safe_state` returns
a non-empty sequence iff it returns safe `True`; when safe the sequence is
a permutation of all process identifiers, and when unsafe it is empty.
(Validation guarantees at least one process, so the permutation is
non-empty exactly when safe.) -/
theorem is_safe_state_sequence_iff (processes resources : List String)
    (allocation max_demand : List (List Int)) (available : List Int)
    (hvalid : (validate_input processes resources allocation max_demand available).1 = true) :
    ((is_safe_state processes resources allocation max_demand available).2 ≠ [] ↔
      (is_safe_state processes resources allocation max_demand available).1 = true) ∧
    ((is_safe_state processes resources allocation max_demand available).1 = true →
      (is_safe_state processes resources allocation max_demand available).2.Perm processes) ∧
    ((is_safe_state processes resources allocation max_demand available).1 = false →
      (is_safe_state processes resources allocation max_demand available).2 = []) := by
  obtain ⟨-, -, hplen, hane, -, -⟩ :=
    validate_accept_shapes processes resources allocation max_demand available hvalid
  have hpne : processes ≠ [] := by
    intro h
    rw [h] at hplen
    exact hane (List.length_eq_zero.mp hplen.symm)
  refine ⟨⟨?_, ?_⟩,
    fun h => is_safe_state_true_perm processes resources allocation max_demand available h,
    fun h => is_safe_state_false_empty processes resources allocation max_demand available h⟩
  · intro hne
    rcases Bool.eq_false_or_eq_true
      ((is_safe_state processes resources allocation max_demand available).1) with hb | hb
    · exact hb
    · exact absurd
        (is_safe_state_false_empty processes resources allocation max_demand available hb) hne
  · intro hb hnil
    have hperm := is_safe_state_true_perm processes resources allocation max_demand available hb
    rw [hnil] at hperm
    exact hpne hperm.symm.eq_nil

/-- Witness for C1 at a concrete validated input. -/
theorem is_safe_state_sequence_iff_witness :
    ((is_safe_state [("P0")] [("R0")] [[0]] [[0]] [0]).2 ≠ [] ↔
      (is_safe_state [("P0")] [("R0")] [[0]] [[0]] [0]).1 = true) ∧
    ((is_safe_state [("P0")] [("R0")] [[0]] [[0]] [0]).1 = true →
      (is_safe_state [("P0")] [("R0")] [[0]] [[0]] [0]).2.Perm [("P0")]) ∧
    ((is_safe_state [("P0")] [("R0")] [[0]] [[0]] [0]).1 = false →
      (is_safe_state [("P0")] [("R0")] [[0]] [[0]] [0]).2 = []) :=
  is_safe_state_sequence_iff [("P0")] [("R0")] [[0]] [[0]] [0] (by decide)

/-- C5: safety is monotonic in the available vector. For a valid input
(rectangular matrices, non-negative allocation entries, one available
entry per resource) on which `is_safe_state` answers safe, increasing any
single entry `available[j]` by a non-negative amount, with processes,
resources, allocation and max demand fixed, still yields safe `True`. -/
theorem is_safe_state_monotone_available (processes resources : List String)
    (allocation max_demand : List (List Int)) (available : List Int)
    (hA_rows : allocation.length = processes.length)
    (hA_cols : ∀ r ∈ allocation, r.length = resources.length)
    (hA_nonneg : ∀ r ∈ allocation, ∀ x ∈ r, 0 ≤ x)
    (hav : available.length = resources.length)
    (hsafe : (is_safe_state processes resources allocation max_demand available).1 = true)
    (j : Nat) (d : Int) (hd : 0 ≤ d) :
    (is_safe_state processes resources allocation max_demand
      (available.set j (available.getD j 0 + d))).1 = true := by
  have hrows : ∀ i < processes.length,
      (allocation.getD i []).length = resources.length := by
    intro i hi
    have hilt : i < allocation.length := by omega
    rw [List.getD_eq_getElem _ _ hilt]
    exact hA_cols _ (List.getElem_mem _)
  have hpos : ∀ i < processes.length, ∀ x ∈ allocation.getD i [], 0 ≤ x := by
    intro i hi
    have hilt : i < allocation.length := by omega
    rw [List.getD_eq_getElem _ _ hilt]
    exact hA_nonneg _ (List.getElem_mem _)
  rw [is_safe_state] at hsafe
  obtain ⟨sg, hnd, hmemb, hgood, -⟩ := safeLoop_sound (needOf max_demand allocation)
    allocation resources.length processes available (processes.length + 1)
    available (List.replicate processes.length false) [] []
    List.nodup_nil (fun i => by simp [getD_replicate_false]) trivial rfl rfl
    (List.length_replicate _ _) hsafe
  have hav2len : (available.set j (available.getD j 0 + d)).length = resources.length := by
    rw [List.length_set]
    exact hav
  have hle : ∀ k < resources.length,
      available.getD k 0 ≤ (available.set j (available.getD j 0 + d)).getD k 0 := by
    intro k hk
    by_cases hkj : j = k
    · subst hkj
      by_cases hjl : j < available.length
      · rw [getD_set_self available j hjl _ 0]
        omega
      · have hge : available.length ≤ j := Nat.le_of_not_lt hjl
        rw [List.getD_eq_default (available.set j (available.getD j 0 + d)) 0
            (by rw [List.length_set]; exact hge),
          List.getD_eq_default available 0 hge]
    · rw [getD_set_ne available j k hkj _ 0]
  have hsglen : sg.length = processes.length := by
    have hperm : sg.Perm (List.range processes.length) := by
      rw [List.perm_ext_iff_of_nodup hnd (List.nodup_range _)]
      intro i
      rw [List.mem_range]
      exact hmemb i
    rw [hperm.length_eq, List.length_range]
  have hsgbound : ∀ i ∈ sg, i < processes.length := fun i hi => (hmemb i).mp hi
  have hgood2 : goodSeq (needOf max_demand allocation) allocation resources.length sg
      (available.set j (available.getD j 0 + d)) :=
    goodSeq_mono (needOf max_demand allocation) allocation resources.length sg
      available (available.set j (available.getD j 0 + d))
      (fun i hi => hrows i (hsgbound i hi)) hav hav2len hle hgood
  rw [is_safe_state]
  exact safeLoop_complete (needOf max_demand allocation) allocation resources.length
    processes hrows hpos (processes.length + 1)
    (available.set j (available.getD j 0 + d)) (List.replicate processes.length false) [] sg
    hnd
    (fun i => by rw [getD_replicate_false]; simpa using hmemb i)
    hgood2 (by simpa using hsglen) (List.length_replicate _ _) hav2len (by omega)

/-- Witness for C5: a 1-process input, safe with `available = [0]`, stays
safe after raising `available[0]` by 1. -/
theorem is_safe_state_monotone_available_witness :
    (is_safe_state [("P0")] [("R0")] [[0]] [[0]]
      (List.set [0] 0 (List.getD [0] 0 0 + 1))).1 = true :=
  is_safe_state_monotone_available [("P0")] [("R0")] [[0]] [[0]] [0]
    (by decide) (by decide) (by decide) (by decide) (by decide) 0 1 (by decide)
